import Mathlib

/-!
Verification of the core data structures and algorithms of the
`muhtutorials/bittorrent` client against its natural-language specification.

Each Rust source function that a claim depends on is shallowly embedded as a
Lean definition; machine bytes are modelled as `Nat` values below 256, `u32`
values as `Nat` with explicit `% 2^32` where the source casts, and fallible
operations return `Except`/`Option`.
-/

/-- The fixed block size `1 << 14` (`BLOCK_MAX` in `peer.rs` / `download.rs`,
`BLOCK_SIZE` in `lib.rs`). -/
def BLOCK_MAX : Nat := 16384

/-- Big-endian reconstruction of a `u32` from its four bytes
(`u32::from_be_bytes`); bytes beyond the fourth are ignored, missing bytes
read as 0. -/
def fromBe4 (bs : List Nat) : Nat :=
  bs.getD 0 0 * 16777216 + bs.getD 1 0 * 65536 + bs.getD 2 0 * 256 + bs.getD 3 0

/-- Big-endian byte decomposition of a `u32` (`u32::to_be_bytes`). -/
def u32ToBe (n : Nat) : List Nat :=
  [n / 16777216 % 256, n / 65536 % 256, n / 256 % 256, n % 256]

theorem fromBe4_u32ToBe (n : Nat) (h : n < 4294967296) : fromBe4 (u32ToBe n) = n := by
  simp only [fromBe4, u32ToBe, List.getD, List.get?, Option.getD_some]
  omega

/-! Section: Bitfield (`src/bitfield.rs`)

`bytes` is the packed representation, MSB-first within each byte; `n_bits`
is the capacity. -/

structure Bitfield where
  bytes : List Nat
  n_bits : Nat
deriving Repr, DecidableEq

namespace Bitfield

/-- Model of `Bitfield::new`: `(n_bits + 8 - 1) / 8` zero bytes. -/
def new (n_bits : Nat) : Bitfield :=
  { bytes := List.replicate ((n_bits + 8 - 1) / 8) 0, n_bits := n_bits }

/-- Model of `Bitfield::from_vec`: wraps raw bytes with `n_bits = 0`. -/
def from_vec (data : List Nat) : Bitfield :=
  { bytes := data, n_bits := 0 }

/-- Model of `Bitfield::set`: errors when `index >= n_bits`, otherwise ORs the mask
`0b1000_0000 >> (index % 8)` into byte `index / 8`.  (The Rust indexed store
panics when the byte is absent; with `index < n_bits` the byte always
exists, which we prove where needed, so `List.set`/`getD` coincide with
it.) -/
def set (bf : Bitfield) (index : Nat) : Except String Bitfield :=
  if bf.n_bits ≤ index then .error "bit index is out of range"
  else
    let byte_i := index / 8
    let bit_i := index % 8
    .ok { bf with bytes := bf.bytes.set byte_i ((bf.bytes.getD byte_i 0) ||| (128 >>> bit_i)) }

/-- Model of `Bitfield::has`: false when the byte is out of range, otherwise tests
the mask `0b1000_0000 >> (index % 8)`. -/
def has (bf : Bitfield) (index : Nat) : Bool :=
  match bf.bytes.get? (index / 8) with
  | none => false
  | some byte => byte &&& (128 >>> (index % 8)) != 0

/-- Model of `Bitfield::set_bits`: for every byte (in order) and every bit position
0..8, yield `byte_i * 8 + bit_i` when the bit is set.  Not bounded by
`n_bits` (the source iterates all bytes). -/
def set_bits (bf : Bitfield) : List Nat :=
  bf.bytes.enum.flatMap (fun be =>
    (List.range 8).filterMap (fun bit_i =>
      if be.2 &&& (128 >>> bit_i) != 0 then some (be.1 * 8 + bit_i) else none))

/-- Model of `Bitfield::unset_bits`: like `set_bits` but yields clear bits and stops
at `n_bits`. -/
def unset_bits (bf : Bitfield) : List Nat :=
  bf.bytes.enum.flatMap (fun be =>
    (List.range 8).filterMap (fun bit_i =>
      if bf.n_bits ≤ be.1 * 8 + bit_i then none
      else if be.2 &&& (128 >>> bit_i) == 0 then some (be.1 * 8 + bit_i) else none))

end Bitfield

example : (Bitfield.from_vec [170, 118]).has 0 = true := by decide
example : (Bitfield.from_vec [170, 118]).has 1 = false := by decide
example : (Bitfield.from_vec [170, 118]).has 14 = true := by decide
example : (Bitfield.from_vec [170, 118]).set_bits = [0, 2, 4, 6, 9, 10, 11, 13, 14] := by decide
example : (Bitfield.new 3).unset_bits = [0, 1, 2] := by decide
example : ((Bitfield.new 35).set 34).map (fun b => b.has 34) = .ok true := by rfl

/-! Section: Torrent descriptor (`src/dot_torrent.rs`) and pieces (`src/piece.rs`) -/

structure File where
  length : Nat
  path : List String
deriving Repr, DecidableEq

inductive Key where
  | SingleFile (length : Nat)
  | MultipleFiles (files : List File)
deriving Repr, DecidableEq

structure Info where
  name : String
  piece_length : Nat
  pieces : List (List Nat)
  key : Key
deriving Repr, DecidableEq

structure DotTorrent where
  announce : String
  info : Info
deriving Repr, DecidableEq

/-- Model of `DotTorrent::length`: the single file's length, or the sum of the file
lengths. -/
def DotTorrent.length (t : DotTorrent) : Nat :=
  match t.info.key with
  | .SingleFile length => length
  | .MultipleFiles files => (files.map (fun f => f.length)).sum

/-- A peer, as `Piece::new` sees it: only `has_piece` (which reads the
session's bitfield) is consulted. -/
structure Peer where
  bitfield : Bitfield
deriving Repr, DecidableEq

/-- Model of `Peer::has_piece`. -/
def Peer.has_piece (p : Peer) (piece_i : Nat) : Bool :=
  p.bitfield.has piece_i

/-- Model of `Piece` (`src/piece.rs`): the provider `HashSet<usize>` is modelled as
the list of peer indices in iteration order. -/
structure Piece where
  index : Nat
  length : Nat
  hash : List Nat
  peers : List Nat
deriving Repr, DecidableEq

/-- Model of `Piece::new`: the last piece's length is `dot_torrent.length() %
dot_torrent.info.piece_length`, every other piece's is `piece_length`; the
provider set collects the indices of the peers whose bitfield has the
piece. -/
def Piece.new (index : Nat) (t : DotTorrent) (peers : List Peer) : Piece :=
  let length :=
    if index = t.info.pieces.length - 1 then t.length % t.info.piece_length
    else t.info.piece_length
  let hash := t.info.pieces.getD index []
  let providers := (peers.enum.filterMap (fun pp =>
    if pp.2.has_piece index then some pp.1 else none))
  { index := index, length := length, hash := hash, peers := providers }

/-- Lexicographic comparison of the provider iterators
(`self.peers.iter().cmp(other.peers.iter())`). -/
def listCmp : List Nat → List Nat → Ordering
  | [], [] => .eq
  | [], _ :: _ => .lt
  | _ :: _, [] => .gt
  | a :: as_, b :: bs => (compare a b).then (listCmp as_ bs)

/-- Model of `impl Ord for Piece`: compare provider-set sizes, then tie-break by the
provider sets' contents. -/
def pieceCmp (a b : Piece) : Ordering :=
  (compare a.peers.length b.peers.length).then (listCmp a.peers b.peers)

/-- Model of `std::collections::BinaryHeap::pop` semantics over the `Ord` above: a
`BinaryHeap` is a max-heap, so `pop` removes and returns a greatest
element.  The heap's contents are modelled as a list; `pop` selects a
maximal element w.r.t. `pieceCmp` (the fold keeps the incumbent on ties,
matching that *some* greatest element is returned) and removes it. -/
def heapPopMax (l : List Piece) : Option (Piece × List Piece) :=
  match l with
  | [] => none
  | x :: xs =>
    let m := xs.foldl (fun acc p => if pieceCmp p acc == .gt then p else acc) x
    some (m, l.erase m)

/-! Section: Downloaded result iterator (`src/download.rs`) -/

/-- The download result: the declared file list and the concatenated byte
stream. -/
structure Downloaded where
  files : List File
  bytes : List Nat
deriving Repr, DecidableEq

/-- Model of `DownloadedIter`: the not-yet-yielded suffix of the file list plus the
`offset` field. -/
structure DownloadedIter where
  offset : Nat
  files_iter : List File
deriving Repr, DecidableEq

/-- Model of `DownloadedIter::new`. -/
def DownloadedIter.new (d : Downloaded) : DownloadedIter :=
  { offset := 0, files_iter := d.files }

/-- Model of `impl Iterator for DownloadedIter`: yields
`bytes[offset .. offset + file.length]` for the next file.  Faithful to the
source, `offset` is **not** advanced by `next`. -/
def DownloadedIter.next (d : Downloaded) (it : DownloadedIter) :
    Option ((File × List Nat) × DownloadedIter) :=
  match it.files_iter with
  | [] => none
  | f :: fs =>
    some ((f, (d.bytes.drop it.offset).take f.length),
      { offset := it.offset, files_iter := fs })

/-- Repeatedly call `next`, `fuel` bounding the number of calls (every call
shortens `files_iter`, so `files_iter.length` calls exhaust it). -/
def DownloadedIter.drain (d : Downloaded) (fuel : Nat) (it : DownloadedIter) :
    List (File × List Nat) :=
  match fuel with
  | 0 => []
  | fuel + 1 =>
    match DownloadedIter.next d it with
    | none => []
    | some (x, it') => x :: DownloadedIter.drain d fuel it'

/-- Iterating a `Downloaded` to exhaustion (`for file in &downloaded`),
collecting each yielded `(file, bytes)` pair. -/
def Downloaded.intoList (d : Downloaded) : List (File × List Nat) :=
  DownloadedIter.drain d d.files.length (DownloadedIter.new d)

/-! Section: Wire codec (`src/peer.rs`: `MessageFramer`) -/

/-- Message tags 0..8. -/
inductive MessageType where
  | Choke | Unchoke | Interested | NotInterested | Have | Bitfield | Request | Piece | Cancel
deriving Repr, DecidableEq

/-- The tag byte of a message type (`item.typ as u8`). -/
def MessageType.toU8 : MessageType → Nat
  | .Choke => 0
  | .Unchoke => 1
  | .Interested => 2
  | .NotInterested => 3
  | .Have => 4
  | .Bitfield => 5
  | .Request => 6
  | .Piece => 7
  | .Cancel => 8

/-- Model of `impl TryFrom<u8> for MessageType`: tags outside 0..8 are invalid. -/
def MessageType.tryFromU8 (value : Nat) : Except String MessageType :=
  match value with
  | 0 => .ok .Choke
  | 1 => .ok .Unchoke
  | 2 => .ok .Interested
  | 3 => .ok .NotInterested
  | 4 => .ok .Have
  | 5 => .ok .Bitfield
  | 6 => .ok .Request
  | 7 => .ok .Piece
  | 8 => .ok .Cancel
  | _ => .error "Invalid message type"

structure Message where
  typ : MessageType
  payload : List Nat
deriving Repr, DecidableEq

/-- Maximum accepted frame length, `const MAX: usize = 1 << 16`. -/
def FRAME_MAX : Nat := 65536

/-- Model of `MessageFramer::decode` over the accumulated buffer `src`.  Returns the
decoder's outcome together with the remaining buffer: `ok (none, src')`
models `Ok(None)` ("need more bytes") with the buffer advanced past any
consumed keep-alive frames, `ok (some m, src')` models `Ok(Some(m))`, and
`error` the two fatal cases.  The branch order is the source's: the
keep-alive check, then the `src.len() < 5` check, then the over-length
check, then the full-frame check. -/
def MessageFramer.decode (src : List Nat) : Except String (Option Message × List Nat) :=
  if _h4 : src.length < 4 then .ok (none, src)
  else
    let length := fromBe4 (src.take 4)
    if length = 0 then MessageFramer.decode (src.drop 4)
    else if src.length < 5 then .ok (none, src)
    else if FRAME_MAX < length then .error "frame is too large"
    else if src.length < 4 + length then .ok (none, src)
    else
      match MessageType.tryFromU8 (src.getD 4 0) with
      | .error e => .error e
      | .ok typ =>
        let payload := if 1 < length then (src.drop 5).take (length - 1) else []
        .ok (some { typ := typ, payload := payload }, src.drop (4 + length))
termination_by src.length
decreasing_by simp; omega

/-- Model of `MessageFramer::encode`: rejects `payload.len() + 1 > MAX`, otherwise
emits the 4-byte big-endian length `payload.len() + 1`, the tag byte and
the payload. -/
def MessageFramer.encode (item : Message) : Except String (List Nat) :=
  if FRAME_MAX < item.payload.length + 1 then .error "frame is too large"
  else .ok (u32ToBe (item.payload.length + 1) ++ item.typ.toU8 :: item.payload)

example : MessageFramer.encode { typ := .Have, payload := [0, 0, 0, 7] } =
    .ok [0, 0, 0, 5, 4, 0, 0, 0, 7] := by rfl
example : MessageFramer.decode [0, 0, 0, 5, 4, 0, 0, 0, 7, 9, 9] =
    .ok (some { typ := .Have, payload := [0, 0, 0, 7] }, [9, 9]) := by
  rw [MessageFramer.decode]; norm_num [fromBe4, FRAME_MAX, MessageType.tryFromU8]
example : MessageFramer.decode [0, 0, 0, 0, 0, 0, 0, 1, 2] =
    .ok (some { typ := .Interested, payload := [] }, []) := by
  rw [MessageFramer.decode]; norm_num [fromBe4]
  rw [MessageFramer.decode]; norm_num [fromBe4, FRAME_MAX, MessageType.tryFromU8]
example : MessageFramer.decode [255, 255, 255, 255] = .ok (none, [255, 255, 255, 255]) := by
  rw [MessageFramer.decode]; norm_num [fromBe4]
example : MessageFramer.decode [255, 255, 255, 255, 0] = .error "frame is too large" := by
  rw [MessageFramer.decode]; norm_num [fromBe4, FRAME_MAX]

/-! Section: Peer work loop (`src/peer.rs`: `Peer::participate`)

The labeled-`continue` control flow of `participate` is encoded as a small-
step machine with an explicit state: `jobTop` is the top of the `'job` loop
(whose `while self.chocked` header reads messages until Unchoke), `pullJob`
is the `job_rx.recv()` point, and `awaitPiece` is the inner read loop that
waits for the matching Piece response.  Each step consumes at most one
incoming framed message; the shared work queue is the `jobs` list (receive
from the front, `job_tx.send` appends at the back), blocks handed to
`done_tx` accumulate in `done`, and sent Requests accumulate in
`requests`. -/

/-- Model of `PieceRequest::new(index, begin, length)` — `u32` fields, so the
`as u32` casts truncate mod `2^32`. -/
structure PieceRequest where
  index : Nat
  begin : Nat
  length : Nat
deriving Repr, DecidableEq

def PieceRequest.new (index begin length : Nat) : PieceRequest :=
  { index := index % 4294967296, begin := begin % 4294967296,
    length := length % 4294967296 }

/-- Model of `PieceResponse::ref_from_bytes`: `None` when fewer than 8 bytes,
otherwise the two leading big-endian `u32` fields, and the rest as the
block. -/
def PieceResponse.ref_from_bytes (data : List Nat) : Option (Nat × Nat × List Nat) :=
  if data.length < 8 then none
  else some (fromBe4 (data.take 4), fromBe4 ((data.drop 4).take 4), data.drop 8)

/-- Control position inside `Peer::participate`. -/
inductive PeerState where
  | jobTop
  | pullJob
  | awaitPiece (block_i : Nat) (block_size : Nat)
deriving Repr, DecidableEq

/-- The mutable pieces of one `participate` call: the session's
`chocked` flag and bitfield, the control state, the shared work queue, the
messages shipped to `done_tx`, and the Requests written to the stream. -/
structure PeerCfg where
  chocked : Bool
  bitfield : Bitfield
  state : PeerState
  jobs : List Nat
  done : List Message
  requests : List PieceRequest
deriving Repr, DecidableEq

/-- The per-call constants of `participate`. -/
structure PieceJob where
  piece_i : Nat
  piece_size : Nat
  n_blocks : Nat
deriving Repr, DecidableEq

/-- One step's outcome: continue with a new configuration and remaining
input, finish (`Ok(())` or `bail!`), or die on a failed
`assert!`/`expect`. -/
inductive StepOut where
  | next (cfg : PeerCfg) (msgs : List Message)
  | finished (res : Except String Unit)
  | panic
deriving Repr

/-- One small step of `Peer::participate`, translated arm by arm.  `Have`
handlers are the source's `// TODO: update bitfield` no-ops. -/
def participateStep (p : PieceJob) (cfg : PeerCfg) (msgs : List Message) : StepOut :=
  match cfg.state with
  | .jobTop =>
    if cfg.chocked then
      match msgs with
      | [] => .panic
      | msg :: rest =>
        match msg.typ with
        | .Choke => .finished (.error "peer sent unchoke while unchoked")
        | .Unchoke =>
          if msg.payload = [] then .next { cfg with chocked := false } rest else .panic
        | .Interested => .next cfg rest
        | .NotInterested => .next cfg rest
        | .Request => .next cfg rest
        | .Cancel => .next cfg rest
        | .Have => .next cfg rest
        | .Bitfield => .finished (.error "peer sent bitfield after handshake")
        | .Piece => .next cfg rest
    else .next { cfg with state := .pullJob } msgs
  | .pullJob =>
    match cfg.jobs with
    | [] => .finished (.ok ())
    | block_i :: restJobs =>
      let block_size :=
        if block_i = p.n_blocks - 1 then
          if p.piece_size % BLOCK_MAX = 0 then BLOCK_MAX else p.piece_size % BLOCK_MAX
        else BLOCK_MAX
      let req := PieceRequest.new p.piece_i (block_i * BLOCK_MAX) block_size
      .next { cfg with jobs := restJobs, requests := cfg.requests ++ [req],
                       state := .awaitPiece block_i block_size } msgs
  | .awaitPiece block_i block_size =>
    match msgs with
    | [] => .panic
    | msg :: rest =>
      match msg.typ with
      | .Choke =>
        if msg.payload = [] then
          .next { cfg with chocked := true, jobs := cfg.jobs ++ [block_i],
                           state := .jobTop } rest
        else .panic
      | .Unchoke => .finished (.error "peer sent unchoke while unchoked")
      | .Interested => .next cfg rest
      | .NotInterested => .next cfg rest
      | .Request => .next cfg rest
      | .Cancel => .next cfg rest
      | .Have => .next cfg rest
      | .Bitfield => .finished (.error "peer sent bitfield after handshake")
      | .Piece =>
        match PieceResponse.ref_from_bytes msg.payload with
        | none => .panic
        | some (idx, bg, blk) =>
          if idx = p.piece_i ∧ bg = block_i * BLOCK_MAX then
            if blk.length = block_size then
              .next { cfg with done := cfg.done ++ [msg], state := .jobTop } rest
            else .panic
          else .next cfg rest

/-! Section: LRU cache iterator (`src/lru_cache.rs`)

The cache's doubly-linked list is `head ↔ e_1 ↔ … ↔ e_m ↔ tail` with the
entries in most-recently-used-first order; it is modelled by the entry list
`els` plus integer node positions: `0` is the head sentinel, `1..m` the
entries, `m+1` the tail sentinel.  `Iter` holds the two node pointers and
the remaining `len`. -/

structure LruIter (α : Type) where
  els : List α
  ptr : Int
  endPos : Int
  len : Nat
deriving Repr, DecidableEq

/-- Dereferencing a node pointer: entry positions yield their entry,
sentinel (or out-of-list) positions have `MaybeUninit` key/value and yield
nothing. -/
def LruIter.read {α : Type} (it : LruIter α) (i : Int) : Option α :=
  if 1 ≤ i ∧ i ≤ it.els.length then it.els.get? (i - 1).toNat else none

/-- Model of `LruCache::iter`: `ptr = (*head).next` (the first entry), `end =
(*tail).prev` (the last entry), `len = map.len()`. -/
def LruCache.iter {α : Type} (els : List α) : LruIter α :=
  { els := els, ptr := 1, endPos := els.length, len := els.length }

/-- Model of `Iter::next`: when `len > 0`, read the node at `ptr`, advance `ptr` to
`(*ptr).next`, decrement `len`. -/
def LruIter.next {α : Type} (it : LruIter α) : Option (Option α × LruIter α) :=
  if it.len = 0 then none
  else some (it.read it.ptr, { it with ptr := it.ptr + 1, len := it.len - 1 })

/-- Model of `Iter::next_back` as written in the source: when `len > 0`, read the
node at `end`, but then move **`ptr`** to `(*ptr).prev` (the field `end`
is never advanced), and decrement `len`. -/
def LruIter.next_back {α : Type} (it : LruIter α) : Option (Option α × LruIter α) :=
  if it.len = 0 then none
  else some (it.read it.endPos, { it with ptr := it.ptr - 1, len := it.len - 1 })

/-- Repeatedly call `next`, `fuel` bounding the number of calls. -/
def LruIter.drainFwd {α : Type} (fuel : Nat) (it : LruIter α) : List (Option α) :=
  match fuel with
  | 0 => []
  | fuel + 1 =>
    match it.next with
    | none => []
    | some (x, it') => x :: LruIter.drainFwd fuel it'

/-- Repeatedly call `next_back`, `fuel` bounding the number of calls. -/
def LruIter.drainBack {α : Type} (fuel : Nat) (it : LruIter α) : List (Option α) :=
  match fuel with
  | 0 => []
  | fuel + 1 =>
    match it.next_back with
    | none => []
    | some (x, it') => x :: LruIter.drainBack fuel it'

/-- Drain the iterator forward; `len` calls exhaust it, because every
`next` decrements `len` and `next` on `len = 0` stops. -/
def LruIter.collectFwd {α : Type} (it : LruIter α) : List (Option α) :=
  LruIter.drainFwd it.len it

/-- Drain the iterator backward (`.rev()`). -/
def LruIter.collectBack {α : Type} (it : LruIter α) : List (Option α) :=
  LruIter.drainBack it.len it

example : (LruCache.iter [(1, 10), (2, 20)]).collectFwd = [some (1, 10), some (2, 20)] := by
  decide
example : (LruCache.iter [(1, 10), (2, 20)]).collectBack = [some (2, 20), some (2, 20)] := by
  decide

/-! Section: Claim C2 — piece length law -/

/-- C2 (code bug): the piece length law fails when the total length is an
exact multiple of the piece length.  For the single-file descriptor with
N = 32768, L = 32768 and P = 1 piece, `Piece::new` assigns the last (only)
piece length `N % L = 0`, whereas the claimed law gives
`((N − 1) mod L) + 1 = 32768`; consequently the piece lengths sum to 0, not
to N. -/
def exactMultipleTorrent : DotTorrent :=
  { announce := "",
    info := { name := "f", piece_length := 32768,
              pieces := [List.replicate 20 0], key := .SingleFile 32768 } }

theorem piece_length_law_fails_on_exact_multiple :
    exactMultipleTorrent.length = 32768 ∧
    exactMultipleTorrent.info.piece_length = 32768 ∧
    exactMultipleTorrent.info.pieces.length = 1 ∧
    (Piece.new 0 exactMultipleTorrent []).length = 0 ∧
    ((32768 - 1) % 32768 + 1 = 32768) ∧
    (((List.range 1).map
      (fun i => (Piece.new i exactMultipleTorrent []).length)).sum = 0) := by
  refine ⟨rfl, rfl, rfl, rfl, by norm_num, rfl⟩

/-! Section: Claim C3 — multi-file output mapping -/

/-- C3 (code bug): `DownloadedIter::next` never advances `offset`, so every
yielded file is sliced from the start of the buffer.  With two one-byte
files over the bytes `[10, 20]`, iteration yields `[10]` for *both* files;
the claimed sequential cuts would give `[10]` then `[20]`. -/
theorem downloaded_iter_never_advances_offset :
    Downloaded.intoList { files := [{ length := 1, path := ["a"] },
                                    { length := 1, path := ["b"] }],
                          bytes := [10, 20] } =
      [({ length := 1, path := ["a"] }, [10]), ({ length := 1, path := ["b"] }, [10])] ∧
    [({ length := 1, path := ["a"] }, [10]), ({ length := 1, path := ["b"] }, [10])] ≠
      ([({ length := 1, path := ["a"] }, [10]), ({ length := 1, path := ["b"] }, [20])] :
        List (File × List Nat)) := by
  exact ⟨rfl, by decide⟩

/-! Section: Claim C10 — LRU iteration order -/

/-- C10 (code bug): `Iter::next_back` reads the entry under `end` but never
moves `end` (it decrements `ptr` instead), so reversing a two-entry cache
(MRU entry `(1, 10)`, LRU entry `(2, 20)`) yields the LRU entry twice
instead of the forward iteration reversed. -/
theorem lru_next_back_repeats_last_entry :
    (LruCache.iter [(1, 10), (2, 20)]).collectFwd = [some (1, 10), some (2, 20)] ∧
    (LruCache.iter [(1, 10), (2, 20)]).collectBack = [some (2, 20), some (2, 20)] ∧
    (LruCache.iter [(1, 10), (2, 20)]).collectBack ≠
      ((LruCache.iter [(1, 10), (2, 20)]).collectFwd).reverse := by
  refine ⟨by decide, by decide, by decide⟩

/-! Section: Claim C8 — Have updates the remote bitfield -/

/-- C8 (code bug): both `Have` arms of the work loop are `TODO` no-ops, so
the remote bitfield is *not* updated.  In each of the two read states
(wait-for-unchoke and await-piece), a session whose bitfield lacks index 1
that receives `Have(1)` still reports `has_piece(1) = false` afterwards
(the configuration is returned entirely unchanged). -/
def tinyJob : PieceJob := { piece_i := 0, piece_size := 5, n_blocks := 1 }

def chokedSession : PeerCfg :=
  { chocked := true, bitfield := Bitfield.new 4, state := .jobTop,
    jobs := [], done := [], requests := [] }

def awaitingSession : PeerCfg :=
  { chocked := false, bitfield := Bitfield.new 4, state := .awaitPiece 0 5,
    jobs := [], done := [], requests := [] }

def haveMsg1 : Message := { typ := .Have, payload := [0, 0, 0, 1] }

theorem have_leaves_remote_bitfield_unchanged :
    participateStep tinyJob chokedSession [haveMsg1] = .next chokedSession [] ∧
    participateStep tinyJob awaitingSession [haveMsg1] = .next awaitingSession [] ∧
    chokedSession.bitfield.has 1 = false ∧
    awaitingSession.bitfield.has 1 = false := by
  refine ⟨rfl, rfl, by decide, by decide⟩

/-! Section: Claim C6 — choke mid-request requeues, not fatal -/

/-- C6: in the await-piece state for block `j`, an arriving Choke message
(empty payload, as the protocol defines Choke frames) sets the session's
choked flag, appends `j` to the shared work queue exactly once, and
returns control to the top of the `'job` loop (the wait-for-unchoke state)
— the step is a `next`, not a `finished (error ..)` retirement. -/
theorem choke_requeues_block_once (p : PieceJob) (cfg : PeerCfg)
    (msgs : List Message) (j bsz : Nat)
    (h : cfg.state = .awaitPiece j bsz) :
    participateStep p cfg ({ typ := .Choke, payload := [] } :: msgs) =
      .next { cfg with chocked := true, jobs := cfg.jobs ++ [j],
                       state := .jobTop } msgs := by
  simp [participateStep, h]

/-- Witness for C6 at a concrete session: awaiting block 1 of a two-block
piece with blocks 0 requeued already drained. -/
theorem choke_requeues_block_once_witness :
    participateStep { piece_i := 0, piece_size := 20000, n_blocks := 2 }
      { chocked := false, bitfield := Bitfield.new 4, state := .awaitPiece 1 3616,
        jobs := [], done := [], requests := [] }
      [{ typ := .Choke, payload := [] }] =
      .next { chocked := true, bitfield := Bitfield.new 4, state := .jobTop,
              jobs := [1], done := [], requests := [] } [] := by
  exact choke_requeues_block_once _ _ _ 1 3616 rfl

/-! Section: Claim C7 — last block length -/

/-- C7: pulling block `j` of a piece of size `L` with `K = ⌈L / B⌉` blocks
sends a Request whose length is `B` for `j < K − 1` and `L − (K − 1)·B`
for `j = K − 1` (which is `B` when `B ∣ L`), at offset `j·B`. -/
theorem request_block_length (p : PieceJob) (cfg : PeerCfg)
    (msgs : List Message) (j : Nat) (rest : List Nat)
    (hstate : cfg.state = .pullJob) (hjobs : cfg.jobs = j :: rest)
    (hK : p.n_blocks = (p.piece_size + BLOCK_MAX - 1) / BLOCK_MAX)
    (hpos : 0 < p.piece_size) (hj : j < p.n_blocks) :
    participateStep p cfg msgs =
      .next { cfg with jobs := rest,
                       requests := cfg.requests ++
                         [{ index := p.piece_i % 4294967296,
                            begin := (j * BLOCK_MAX) % 4294967296,
                            length := if j < p.n_blocks - 1 then BLOCK_MAX
                                      else p.piece_size - (p.n_blocks - 1) * BLOCK_MAX }],
                       state := .awaitPiece j
                         (if j < p.n_blocks - 1 then BLOCK_MAX
                          else p.piece_size - (p.n_blocks - 1) * BLOCK_MAX) } msgs := by
  have hsz :
      (if j = p.n_blocks - 1 then
        if p.piece_size % BLOCK_MAX = 0 then BLOCK_MAX else p.piece_size % BLOCK_MAX
       else BLOCK_MAX) =
      (if j < p.n_blocks - 1 then BLOCK_MAX
       else p.piece_size - (p.n_blocks - 1) * BLOCK_MAX) := by
    simp only [BLOCK_MAX] at *
    split_ifs <;> omega
  have hmod :
      (if j < p.n_blocks - 1 then BLOCK_MAX
       else p.piece_size - (p.n_blocks - 1) * BLOCK_MAX) % 4294967296 =
      (if j < p.n_blocks - 1 then BLOCK_MAX
       else p.piece_size - (p.n_blocks - 1) * BLOCK_MAX) := by
    simp only [BLOCK_MAX] at *
    split_ifs <;> omega
  simp [participateStep, hstate, hjobs, PieceRequest.new, hsz, hmod]

/-- Witness for C7 at the spec's concrete scenario: a piece of length 5 in
one block elicits `Request(index = 1, begin = 0, length = 5)`, not
length `16384`. -/
theorem request_block_length_witness :
    participateStep { piece_i := 1, piece_size := 5, n_blocks := 1 }
      { chocked := false, bitfield := Bitfield.new 4, state := .pullJob,
        jobs := [0], done := [], requests := [] } [] =
      .next { chocked := false, bitfield := Bitfield.new 4, state := .awaitPiece 0 5,
              jobs := [], done := [], requests := [{ index := 1, begin := 0, length := 5 }] }
        [] := by
  have h := request_block_length { piece_i := 1, piece_size := 5, n_blocks := 1 }
    { chocked := false, bitfield := Bitfield.new 4, state := .pullJob,
      jobs := [0], done := [], requests := [] } [] 0 []
    rfl rfl (by norm_num [BLOCK_MAX]) (by norm_num) (by norm_num)
  simpa using h

/-! Section: Claim C5 — length overflow rejection -/

/-- C5 counterexample: a buffer holding exactly the 4 header bytes
`FF FF FF FF` declares a big-endian length far above `2^16`, yet the
decoder returns "need more bytes" (`Ok(None)`, buffer untouched) instead
of failing — the `src.len() < 5` early return runs before the over-length
check. -/
theorem overlong_header_short_buffer_waits :
    MessageFramer.decode [255, 255, 255, 255] = .ok (none, [255, 255, 255, 255]) ∧
    FRAME_MAX < fromBe4 [255, 255, 255, 255] := by
  constructor
  · rw [MessageFramer.decode]; norm_num [fromBe4]
  · norm_num [fromBe4, FRAME_MAX]

/-- C5 (amended): once at least 5 bytes are buffered, a header declaring a
length above `2^16` makes the decoder fail with the frame-too-large error
(before any length-sized allocation); and the encoder rejects any message
whose payload length + 1 exceeds `2^16`. -/
theorem overlong_frames_rejected :
    (∀ src : List Nat, 5 ≤ src.length → FRAME_MAX < fromBe4 (src.take 4) →
      MessageFramer.decode src = .error "frame is too large") ∧
    (∀ m : Message, FRAME_MAX < m.payload.length + 1 →
      MessageFramer.encode m = .error "frame is too large") := by
  constructor
  · intro src h5 hlen
    have hFM : (0:Nat) < FRAME_MAX := by norm_num [FRAME_MAX]
    rw [MessageFramer.decode]
    rw [dif_neg (by omega : ¬ src.length < 4)]
    simp only [if_neg (by omega : ¬ fromBe4 (src.take 4) = 0),
      if_neg (by omega : ¬ src.length < 5), if_pos hlen]
  · intro m hm
    rw [MessageFramer.encode, if_pos hm]

/-- Witness for C5 (amended): the 5-byte buffer `FF FF FF FF 00` is
rejected, and so is encoding a payload of `2^16` bytes. -/
theorem overlong_frames_rejected_witness :
    MessageFramer.decode [255, 255, 255, 255, 0] = .error "frame is too large" ∧
    MessageFramer.encode { typ := .Choke, payload := List.replicate 65536 0 } =
      .error "frame is too large" := by
  constructor
  · exact overlong_frames_rejected.1 [255, 255, 255, 255, 0]
      (by norm_num) (by norm_num [fromBe4, FRAME_MAX])
  · refine overlong_frames_rejected.2 _ ?_
    have hlen : ({ typ := .Choke, payload := List.replicate 65536 0 } : Message).payload.length
        = 65536 := by
      rw [List.length_replicate]
    rw [hlen]
    norm_num [FRAME_MAX]

/-! Section: Claim C4 — round-trip framing -/

theorem tryFrom_toU8 (t : MessageType) : MessageType.tryFromU8 t.toU8 = .ok t := by
  cases t <;> rfl

/-- C4: for every tag `t` and payload `p` with `|p| + 1 ≤ 2^16`, encoding
`(t, p)` and decoding the result (in front of any further bytes) yields
exactly `(t, p)` and consumes exactly the `4 + |p| + 1` emitted bytes; and
a keep-alive frame (4-byte zero length prefix) is consumed without
producing a message, decoding continuing with the bytes that follow. -/
theorem framer_roundtrip :
    (∀ (t : MessageType) (p rest : List Nat), p.length + 1 ≤ FRAME_MAX →
      ∃ enc, MessageFramer.encode { typ := t, payload := p } = .ok enc ∧
        enc.length = 4 + p.length + 1 ∧
        MessageFramer.decode (enc ++ rest) = .ok (some { typ := t, payload := p }, rest)) ∧
    (∀ rest : List Nat,
      MessageFramer.decode (0 :: 0 :: 0 :: 0 :: rest) = MessageFramer.decode rest) := by
  have hFM : FRAME_MAX = 65536 := rfl
  constructor
  · intro t p rest hp
    refine ⟨u32ToBe (p.length + 1) ++ t.toU8 :: p, ?_, ?_, ?_⟩
    · simp only [MessageFramer.encode]
      rw [if_neg (by omega)]
    · simp [u32ToBe]
      omega
    · have hsrc : (u32ToBe (p.length + 1) ++ t.toU8 :: p) ++ rest =
          ((p.length + 1) / 16777216 % 256) :: ((p.length + 1) / 65536 % 256) ::
          ((p.length + 1) / 256 % 256) :: ((p.length + 1) % 256) :: t.toU8 :: (p ++ rest) := by
        simp [u32ToBe]
      rw [hsrc]
      rw [MessageFramer.decode]
      have hlen4 : fromBe4 ((((p.length + 1) / 16777216 % 256) ::
          ((p.length + 1) / 65536 % 256) :: ((p.length + 1) / 256 % 256) ::
          ((p.length + 1) % 256) :: t.toU8 :: (p ++ rest)).take 4) = p.length + 1 := by
        show fromBe4 (u32ToBe (p.length + 1)) = p.length + 1
        exact fromBe4_u32ToBe _ (by omega)
      rw [dif_neg (by simp)]
      rw [hlen4]
      rw [if_neg (by omega)]
      rw [if_neg (by simp)]
      rw [if_neg (by omega)]
      rw [if_neg (by simp; omega)]
      have hget : (((p.length + 1) / 16777216 % 256) :: ((p.length + 1) / 65536 % 256) ::
          ((p.length + 1) / 256 % 256) :: ((p.length + 1) % 256) :: t.toU8 ::
          (p ++ rest)).getD 4 0 = t.toU8 := rfl
      rw [hget, tryFrom_toU8]
      have hdrop5 : (((p.length + 1) / 16777216 % 256) :: ((p.length + 1) / 65536 % 256) ::
          ((p.length + 1) / 256 % 256) :: ((p.length + 1) % 256) :: t.toU8 ::
          (p ++ rest)).drop 5 = p ++ rest := rfl
      have hpay : (if 1 < p.length + 1 then ((p ++ rest)).take (p.length + 1 - 1) else []) =
          p := by
        by_cases h0 : 0 < p.length
        · rw [if_pos (by omega)]
          simp
        · rw [if_neg (by omega)]
          have : p = [] := List.eq_nil_of_length_eq_zero (by omega)
          rw [this]
      have hdropAll : (((p.length + 1) / 16777216 % 256) :: ((p.length + 1) / 65536 % 256) ::
          ((p.length + 1) / 256 % 256) :: ((p.length + 1) % 256) :: t.toU8 ::
          (p ++ rest)).drop (4 + (p.length + 1)) = rest := by
        have h5 : 4 + (p.length + 1) = p.length + 5 := by omega
        rw [h5]
        show (p ++ rest).drop p.length = rest
        simp
      simp only [hdrop5, hpay, hdropAll]
  · intro rest
    rw [MessageFramer.decode]
    rw [dif_neg (by simp)]
    have htake : (0 :: 0 :: 0 :: 0 :: rest).take 4 = [0, 0, 0, 0] := by
      simp
    have h0 : fromBe4 ((0 :: 0 :: 0 :: 0 :: rest).take 4) = 0 := by
      rw [htake]
      norm_num [fromBe4]
    rw [h0]
    rw [if_pos rfl]
    have hdrop : (0 :: 0 :: 0 :: 0 :: rest).drop 4 = rest := by
      simp
    rw [hdrop]

/-- Witness for C4: tag Have with payload `[1, 2, 3]` round-trips in front
of a trailing byte, and a keep-alive before a 1-byte remainder is skipped. -/
theorem framer_roundtrip_witness :
    (∃ enc, MessageFramer.encode { typ := .Have, payload := [1, 2, 3] } = .ok enc ∧
      enc.length = 4 + [1, 2, 3].length + 1 ∧
      MessageFramer.decode (enc ++ [9]) =
        .ok (some { typ := .Have, payload := [1, 2, 3] }, [9])) ∧
    MessageFramer.decode (0 :: 0 :: 0 :: 0 :: [5]) = MessageFramer.decode [5] := by
  exact ⟨framer_roundtrip.1 .Have [1, 2, 3] [9] (by norm_num [FRAME_MAX]),
         framer_roundtrip.2 [5]⟩

/-! Section: Claim C1 — piece scheduling order -/

theorem pieceCmp_gt_length {a b : Piece} (h : pieceCmp a b = .gt) :
    b.peers.length ≤ a.peers.length := by
  unfold pieceCmp at h
  rcases hc : compare a.peers.length b.peers.length with _ | _ | _
  · rw [hc] at h
    simp [Ordering.then] at h
  · have := Nat.compare_eq_eq.mp hc
    omega
  · have := Nat.compare_eq_gt.mp hc
    omega

theorem pieceCmp_not_gt_length {a b : Piece} (h : ¬ pieceCmp a b = .gt) :
    a.peers.length ≤ b.peers.length := by
  unfold pieceCmp at h
  rcases hc : compare a.peers.length b.peers.length with _ | _ | _
  · have := Nat.compare_eq_lt.mp hc
    omega
  · have := Nat.compare_eq_eq.mp hc
    omega
  · rw [hc] at h
    simp [Ordering.then] at h

theorem foldMax_spec (xs : List Piece) (x : Piece) :
    ∀ q ∈ x :: xs, q.peers.length ≤
      (xs.foldl (fun acc p => if pieceCmp p acc == .gt then p else acc) x).peers.length := by
  induction xs generalizing x with
  | nil =>
    intro q hq
    simp at hq
    simp [hq]
  | cons y ys ih =>
    intro q hq
    rw [List.foldl_cons]
    have hxy : x.peers.length ≤
        (if pieceCmp y x == .gt then y else x).peers.length ∧
        y.peers.length ≤ (if pieceCmp y x == .gt then y else x).peers.length := by
      rcases hv : pieceCmp y x with _ | _ | _
      · simp only [show (Ordering.lt == Ordering.gt) = false from rfl, Bool.false_eq_true,
          if_false]
        exact ⟨le_refl _, pieceCmp_not_gt_length (by simp [hv])⟩
      · simp only [show (Ordering.eq == Ordering.gt) = false from rfl, Bool.false_eq_true,
          if_false]
        exact ⟨le_refl _, pieceCmp_not_gt_length (by simp [hv])⟩
      · simp only [show (Ordering.gt == Ordering.gt) = true from rfl, if_true]
        exact ⟨pieceCmp_gt_length hv, le_refl _⟩
    have hfold := ih (if pieceCmp y x == .gt then y else x)
    simp only [List.mem_cons] at hq
    rcases hq with hq | hq | hq
    · subst hq
      exact le_trans hxy.1 (hfold _ (List.mem_cons_self _ _))
    · subst hq
      exact le_trans hxy.2 (hfold _ (List.mem_cons_self _ _))
    · exact hfold q (List.mem_cons_of_mem _ hq)

def pieceOneProvider : Piece :=
  { index := 0, length := 16384, hash := List.replicate 20 0, peers := [0] }

def pieceTwoProviders : Piece :=
  { index := 1, length := 16384, hash := List.replicate 20 0, peers := [0, 1] }

/-- C1 counterexample: with one piece held by peer 0 only and another held
by peers 0 and 1, the heap pops the piece with **two** providers first —
the popped piece does not have minimal provider-set size among those
remaining, refuting fewest-providers-first. -/
theorem heap_pop_rarest_first_counterexample :
    heapPopMax [pieceOneProvider, pieceTwoProviders] =
      some (pieceTwoProviders, [pieceOneProvider]) ∧
    pieceOneProvider.peers.length < pieceTwoProviders.peers.length := by
  exact ⟨by decide, by decide⟩

/-- C1 (amended): `BinaryHeap` is a max-heap and `Piece`'s `Ord` sorts
ascending by provider count, so every pop returns a piece of **maximal**
provider-set size among those remaining (most-available-first, the
opposite of the claimed rarest-first). -/
theorem heap_pop_returns_max_providers (l : List Piece) (p : Piece) (rest : List Piece)
    (h : heapPopMax l = some (p, rest)) :
    ∀ q ∈ l, q.peers.length ≤ p.peers.length := by
  cases l with
  | nil => simp [heapPopMax] at h
  | cons x xs =>
    simp only [heapPopMax, Option.some.injEq, Prod.mk.injEq] at h
    intro q hq
    rw [← h.1]
    exact foldMax_spec xs x q hq

/-- Witness for C1 (amended) at the two-piece heap: both pieces' provider
counts are bounded by the popped piece's. -/
theorem heap_pop_returns_max_providers_witness :
    pieceOneProvider.peers.length ≤ pieceTwoProviders.peers.length ∧
    pieceTwoProviders.peers.length ≤ pieceTwoProviders.peers.length := by
  exact ⟨heap_pop_returns_max_providers [pieceOneProvider, pieceTwoProviders]
      pieceTwoProviders [pieceOneProvider] (by decide) pieceOneProvider (by decide),
    heap_pop_returns_max_providers [pieceOneProvider, pieceTwoProviders]
      pieceTwoProviders [pieceOneProvider] (by decide) pieceTwoProviders (by decide)⟩

/-! Section: Claim C9 — bitfield iteration semantics -/

/-- Setting each index of `l` in turn, propagating the first error. -/
def setAll (bf : Bitfield) (l : List Nat) : Except String Bitfield :=
  match l with
  | [] => .ok bf
  | i :: is =>
    match bf.set i with
    | .error e => .error e
    | .ok bf' => setAll bf' is

theorem mask_shift (r : Nat) (h : r < 8) : 128 >>> r = 2 ^ (7 - r) := by
  interval_cases r <;> rfl

theorem testMask_eq_testBit (b r : Nat) (h : r < 8) :
    (b &&& (128 >>> r) != 0) = b.testBit (7 - r) := by
  rw [mask_shift r h]
  rw [Nat.and_two_pow]
  cases hb : b.testBit (7 - r)
  · simp [hb]
  · simp [hb]

theorem has_eq_testBit (bf : Bitfield) (i : Nat) :
    bf.has i = ((bf.bytes.getD (i / 8) 0).testBit (7 - i % 8)) := by
  unfold Bitfield.has
  cases hg : bf.bytes.get? (i / 8) with
  | none =>
    have hg2 : bf.bytes[i / 8]? = none := by
      rw [← List.get?_eq_getElem?]
      exact hg
    simp [List.getD, hg2, Nat.zero_testBit]
  | some b =>
    simp only [List.getD, hg, Option.getD_some]
    exact testMask_eq_testBit b _ (Nat.mod_lt _ (by norm_num))

theorem has_new (n j : Nat) : (Bitfield.new n).has j = false := by
  rw [has_eq_testBit]
  unfold Bitfield.new
  have : (List.replicate ((n + 8 - 1) / 8) 0).getD (j / 8) 0 = 0 := by
    cases hg : (List.replicate ((n + 8 - 1) / 8) (0 : Nat)).get? (j / 8) with
    | none =>
      have hg2 : (List.replicate ((n + 8 - 1) / 8) (0 : Nat))[j / 8]? = none := by
        rw [← List.get?_eq_getElem?]; exact hg
      simp [List.getD, hg2]
    | some b =>
      have hb : b = 0 := List.eq_of_mem_replicate (List.get?_mem hg)
      have hg2 : (List.replicate ((n + 8 - 1) / 8) (0 : Nat))[j / 8]? = some b := by
        rw [← List.get?_eq_getElem?]; exact hg
      simp [List.getD, hg2, hb]
  simp only [this, Nat.zero_testBit]

/-- The bitfield produced by a successful `set i` (byte `i / 8` ORed with
the mask). -/
def setBytes (bf : Bitfield) (i : Nat) : Bitfield :=
  { bf with bytes := bf.bytes.set (i / 8) ((bf.bytes.getD (i / 8) 0) ||| (128 >>> (i % 8))) }

theorem set_ok (bf : Bitfield) (i : Nat) (hi : i < bf.n_bits) :
    bf.set i = .ok (setBytes bf i) := by
  unfold Bitfield.set setBytes
  rw [if_neg (by omega)]

theorem set_err (bf : Bitfield) (i : Nat) (hi : bf.n_bits ≤ i) :
    bf.set i = .error "bit index is out of range" := by
  unfold Bitfield.set
  rw [if_pos hi]

theorem has_after_set (bf : Bitfield) (i j : Nat) (hcap : i / 8 < bf.bytes.length) :
    (setBytes bf i).has j = (bf.has j || decide (j = i)) := by
  unfold setBytes
  rw [has_eq_testBit, has_eq_testBit]
  simp only []
  by_cases hd : j / 8 = i / 8
  · rw [hd]
    have hset : (bf.bytes.set (i / 8) ((bf.bytes.getD (i / 8) 0) |||
        (128 >>> (i % 8)))).getD (i / 8) 0 =
        (bf.bytes.getD (i / 8) 0) ||| (128 >>> (i % 8)) := by
      have h1 : (bf.bytes.set (i / 8) ((bf.bytes.getD (i / 8) 0) |||
          (128 >>> (i % 8)))).get? (i / 8) =
          some ((bf.bytes.getD (i / 8) 0) ||| (128 >>> (i % 8))) := by
        rw [List.get?_set_eq]
        have hne : bf.bytes.get? (i / 8) ≠ none := by
          rw [List.get?_eq_getElem?]
          simp [List.getElem?_eq_none_iff]
          omega
        cases hx : bf.bytes.get? (i / 8) with
        | none => exact absurd hx hne
        | some b => simp
      have h2 : (bf.bytes.set (i / 8) ((bf.bytes.getD (i / 8) 0) |||
          (128 >>> (i % 8))))[i / 8]? =
          some ((bf.bytes.getD (i / 8) 0) ||| (128 >>> (i % 8))) := by
        rw [← List.get?_eq_getElem?]
        exact h1
      rw [List.getD_eq_getElem?_getD, h2, Option.getD_some]
    rw [hset]
    rw [mask_shift _ (Nat.mod_lt _ (by norm_num))]
    rw [Nat.testBit_lor]
    rw [Nat.testBit_two_pow]
    by_cases hm : j % 8 = i % 8
    · have hji : j = i := by omega
      simp [hji]
    · have h7 : ¬ (7 - i % 8 = 7 - j % 8) := by omega
      have hji : ¬ (j = i) := by omega
      simp [h7, hji]
  · have hset : (bf.bytes.set (i / 8) ((bf.bytes.getD (i / 8) 0) |||
        (128 >>> (i % 8)))).getD (j / 8) 0 = bf.bytes.getD (j / 8) 0 := by
      have h1 := List.get?_set_ne ((bf.bytes.getD (i / 8) 0) ||| (128 >>> (i % 8)))
        bf.bytes (Ne.symm hd)
      have h2 : (bf.bytes.set (i / 8) ((bf.bytes.getD (i / 8) 0) |||
          (128 >>> (i % 8))))[j / 8]? = bf.bytes[j / 8]? := by
        rw [← List.get?_eq_getElem?, ← List.get?_eq_getElem?]
        exact h1
      rw [List.getD_eq_getElem?_getD, h2, ← List.getD_eq_getElem?_getD]
    rw [hset]
    have hji : ¬ (j = i) := by omega
    simp [hji]

theorem setBytes_n_bits (bf : Bitfield) (i : Nat) : (setBytes bf i).n_bits = bf.n_bits := rfl

theorem setBytes_length (bf : Bitfield) (i : Nat) :
    (setBytes bf i).bytes.length = bf.bytes.length := by
  unfold setBytes
  simp [List.length_set]

theorem setAll_spec (l : List Nat) : ∀ (bf : Bitfield),
    (∀ i ∈ l, i < bf.n_bits) →
    (∀ i, i < bf.n_bits → i / 8 < bf.bytes.length) →
    ∃ b, setAll bf l = .ok b ∧ b.n_bits = bf.n_bits ∧ b.bytes.length = bf.bytes.length ∧
      ∀ j, (b.has j = true ↔ (bf.has j = true ∨ j ∈ l)) := by
  induction l with
  | nil =>
    intro bf h1 h2
    exact ⟨bf, rfl, rfl, rfl, by simp [setAll]⟩
  | cons i is ih =>
    intro bf h1 h2
    have hi : i < bf.n_bits := h1 i (List.mem_cons_self _ _)
    have hcap : i / 8 < bf.bytes.length := h2 i hi
    obtain ⟨b, hb, hn, hl, hhas⟩ := ih (setBytes bf i)
      (fun k hk => by
        rw [setBytes_n_bits]
        exact h1 k (List.mem_cons_of_mem _ hk))
      (fun k hk => by
        rw [setBytes_length]
        exact h2 k (by rw [setBytes_n_bits] at hk; exact hk))
    refine ⟨b, ?_, ?_, ?_, ?_⟩
    · unfold setAll
      rw [set_ok bf i hi]
      exact hb
    · rw [hn, setBytes_n_bits]
    · rw [hl, setBytes_length]
    · intro j
      rw [hhas j, has_after_set bf i j hcap]
      simp only [Bool.or_eq_true, decide_eq_true_eq, List.mem_cons]
      tauto

theorem filterMap_if_eq_map_filter {α β : Type} (l : List α) (test : α → Bool) (g : α → β) :
    l.filterMap (fun x => if test x then some (g x) else none) =
      (l.filter test).map g := by
  induction l with
  | nil => rfl
  | cons a l ih =>
    by_cases h : test a
    · rw [List.filterMap_cons, List.filter_cons]
      simp only [h, if_true, List.map_cons, ih]
    · rw [List.filterMap_cons, List.filter_cons]
      simp only [h, if_false, ih, Bool.false_eq_true]

theorem enum_flatMap_bits (q : Nat → Nat → Nat → Bool) :
    ∀ (bs : List Nat) (k : Nat),
    (List.enumFrom k bs).flatMap (fun be => (List.range 8).filterMap (fun r =>
        if q (be.1 * 8 + r) be.2 r then some (be.1 * 8 + r) else none))
    = (List.range' (8 * k) (8 * bs.length)).filter
        (fun i => q i (bs.getD (i / 8 - k) 0) (i % 8)) := by
  intro bs
  induction bs with
  | nil =>
    intro k
    simp
  | cons b bs ih =>
    intro k
    rw [show List.enumFrom k (b :: bs) = (k, b) :: List.enumFrom (k + 1) bs from rfl]
    rw [List.flatMap_cons]
    rw [ih (k + 1)]
    have hsplit : List.range' (8 * k) (8 * (b :: bs).length) =
        List.range' (8 * k) 8 ++ List.range' (8 * k + 1 * 8) (8 * bs.length) := by
      rw [List.range'_append]
      congr 1
    rw [hsplit, List.filter_append]
    congr 1
    · -- head chunk
      rw [filterMap_if_eq_map_filter (List.range 8)
        (fun r => q (k * 8 + r) b r) (fun r => k * 8 + r)]
      rw [List.range'_eq_map_range]
      rw [List.filter_map]
      have hcongr : (List.range 8).filter
          ((fun i => q i ((b :: bs).getD (i / 8 - k) 0) (i % 8)) ∘ (fun x => 8 * k + x)) =
          (List.range 8).filter (fun r => q (k * 8 + r) b r) := by
        apply List.filter_congr
        intro r hr
        have hr8 : r < 8 := List.mem_range.mp hr
        have hdiv : (8 * k + r) / 8 - k = 0 := by omega
        have hmod : (8 * k + r) % 8 = r := by omega
        simp only [Function.comp_apply, hdiv, hmod, List.getD_cons_zero]
        have : 8 * k + r = k * 8 + r := by ring
        rw [this]
      rw [hcongr]
      apply List.map_congr_left
      intro r hr
      ring
    · -- tail chunk
      have h8 : 8 * (k + 1) = 8 * k + 1 * 8 := by ring
      rw [h8]
      apply List.filter_congr
      intro i hi
      have hge : 8 * k + 1 * 8 ≤ i := (List.mem_range'_1.mp hi).1
      have hdiv : i / 8 - k = (i / 8 - (k + 1)) + 1 := by omega
      rw [hdiv, List.getD_cons_succ]

theorem has_eq_test_of_lt (bf : Bitfield) (i : Nat) (h : i / 8 < bf.bytes.length) :
    bf.has i = ((bf.bytes.getD (i / 8) 0) &&& (128 >>> (i % 8)) != 0) := by
  unfold Bitfield.has
  cases hg : bf.bytes.get? (i / 8) with
  | none =>
    rw [List.get?_eq_getElem?] at hg
    simp [List.getElem?_eq_none_iff] at hg
    omega
  | some b =>
    have hg2 : bf.bytes[i / 8]? = some b := by
      rw [← List.get?_eq_getElem?]
      exact hg
    simp [List.getD, hg2]

theorem set_bits_eq_filter (bf : Bitfield) :
    bf.set_bits = (List.range (8 * bf.bytes.length)).filter (fun i => bf.has i) := by
  have h1 : bf.set_bits = (List.range' (8 * 0) (8 * bf.bytes.length)).filter
      (fun i => (bf.bytes.getD (i / 8 - 0) 0) &&& (128 >>> (i % 8)) != 0) :=
    enum_flatMap_bits (fun i byte r => byte &&& (128 >>> r) != 0) bf.bytes 0
  rw [h1]
  rw [show (8 : Nat) * 0 = 0 from rfl]
  rw [← List.range_eq_range']
  apply List.filter_congr
  intro i hi
  have hlt : i < 8 * bf.bytes.length := List.mem_range.mp hi
  rw [show i / 8 - 0 = i / 8 from rfl]
  rw [has_eq_test_of_lt bf i (by omega)]

theorem unset_bits_eq_filter (bf : Bitfield) :
    bf.unset_bits = (List.range (8 * bf.bytes.length)).filter
      (fun i => decide (i < bf.n_bits) && !(bf.has i)) := by
  have hfun : bf.unset_bits = bf.bytes.enum.flatMap
      (fun be => (List.range 8).filterMap (fun r =>
        if decide (¬ bf.n_bits ≤ be.1 * 8 + r) && (be.2 &&& (128 >>> r) == 0)
        then some (be.1 * 8 + r) else none)) := by
    unfold Bitfield.unset_bits
    congr 1
    funext be
    apply List.filterMap_congr
    intro r hr
    by_cases h1 : bf.n_bits ≤ be.1 * 8 + r
    · simp [h1]
    · simp [h1]
  rw [hfun]
  have h1 : bf.bytes.enum.flatMap
      (fun be => (List.range 8).filterMap (fun r =>
        if decide (¬ bf.n_bits ≤ be.1 * 8 + r) && (be.2 &&& (128 >>> r) == 0)
        then some (be.1 * 8 + r) else none)) =
      (List.range' (8 * 0) (8 * bf.bytes.length)).filter
        (fun i => decide (¬ bf.n_bits ≤ i) && ((bf.bytes.getD (i / 8 - 0) 0) &&&
          (128 >>> (i % 8)) == 0)) :=
    enum_flatMap_bits
      (fun i byte r => decide (¬ bf.n_bits ≤ i) && (byte &&& (128 >>> r) == 0)) bf.bytes 0
  rw [h1]
  rw [show (8 : Nat) * 0 = 0 from rfl]
  rw [← List.range_eq_range']
  apply List.filter_congr
  intro i hi
  have hlt : i < 8 * bf.bytes.length := List.mem_range.mp hi
  rw [show i / 8 - 0 = i / 8 from rfl]
  rw [has_eq_test_of_lt bf i (by omega)]
  by_cases h2 : i < bf.n_bits
  · simp [h2, bne, Bool.not_not]
  · simp [h2]

theorem new_length (n : Nat) : (Bitfield.new n).bytes.length = (n + 8 - 1) / 8 := by
  simp [Bitfield.new]

/-- C9: for every capacity `n` and index set `S ⊆ [0, n)` (given as a
list), setting exactly the indices of `S` on an empty bitfield of capacity
`n` succeeds, `set_bits()` then yields exactly the elements of `S` in
ascending order, `unset_bits()` yields exactly the ascending complement of
`S` below `n` (stopping at `n`), and `set` errors for every index at or
above `n`. -/
theorem bitfield_iteration_semantics (n : Nat) (S : List Nat) (hS : ∀ i ∈ S, i < n) :
    ∃ b, setAll (Bitfield.new n) S = .ok b ∧
      b.set_bits = (List.range n).filter (fun i => decide (i ∈ S)) ∧
      b.unset_bits = (List.range n).filter (fun i => decide (¬ i ∈ S)) ∧
      ∀ i, n ≤ i → b.set i = .error "bit index is out of range" := by
  obtain ⟨b, hb, hn, hl, hhas⟩ := setAll_spec S (Bitfield.new n)
    (fun i hi => hS i hi)
    (fun i hi => by
      rw [new_length]
      simp [Bitfield.new] at hi
      omega)
  have hn' : b.n_bits = n := hn
  have hL : b.bytes.length = (n + 8 - 1) / 8 := by rw [hl, new_length]
  have h8L : n ≤ 8 * b.bytes.length := by
    rw [hL]
    omega
  have hhas' : ∀ j, (b.has j = true ↔ j ∈ S) := by
    intro j
    rw [hhas j, has_new]
    simp
  have hhb : ∀ i, b.has i = decide (i ∈ S) := by
    intro i
    by_cases hm : i ∈ S
    · rw [(hhas' i).mpr hm, decide_eq_true hm]
    · rw [decide_eq_false hm, Bool.eq_false_iff]
      exact fun hh => hm ((hhas' i).mp hh)
  refine ⟨b, hb, ?_, ?_, ?_⟩
  · calc b.set_bits
        = (List.range (8 * b.bytes.length)).filter (fun i => b.has i) :=
          set_bits_eq_filter b
      _ = (List.range (8 * b.bytes.length)).filter (fun i => decide (i ∈ S)) :=
          List.filter_congr (fun i _ => hhb i)
      _ = (List.range n).filter (fun i => decide (i ∈ S)) := by
          rw [show 8 * b.bytes.length = n + (8 * b.bytes.length - n) by omega]
          rw [List.range_add, List.filter_append]
          have htail : (List.filter (fun i => decide (i ∈ S))
              (List.map (fun x => n + x) (List.range (8 * b.bytes.length - n)))) = [] := by
            rw [List.filter_eq_nil]
            intro a ha
            obtain ⟨x, hx, rfl⟩ := List.mem_map.mp ha
            simp only [decide_eq_true_eq]
            intro hmem
            exact absurd (hS _ hmem) (by omega)
          rw [htail, List.append_nil]
  · calc b.unset_bits
        = (List.range (8 * b.bytes.length)).filter
            (fun i => decide (i < b.n_bits) && !(b.has i)) :=
          unset_bits_eq_filter b
      _ = (List.range n).filter (fun i => decide (¬ i ∈ S)) := by
          rw [show 8 * b.bytes.length = n + (8 * b.bytes.length - n) by omega]
          rw [List.range_add, List.filter_append]
          have htail : (List.filter (fun i => decide (i < b.n_bits) && !(b.has i))
              (List.map (fun x => n + x) (List.range (8 * b.bytes.length - n)))) = [] := by
            rw [List.filter_eq_nil]
            intro a ha
            obtain ⟨x, hx, rfl⟩ := List.mem_map.mp ha
            rw [hn']
            simp only [Bool.and_eq_true, decide_eq_true_eq]
            intro hcon
            omega
          rw [htail, List.append_nil]
          apply List.filter_congr
          intro i hi
          have hlt : i < n := List.mem_range.mp hi
          rw [hn', decide_eq_true hlt, Bool.true_and, hhb i, decide_not]
  · intro i hi
    exact set_err b i (by omega)

/-- Witness for C9 at `n = 10`, `S = [3, 7, 2]`. -/
theorem bitfield_iteration_semantics_witness :
    (∀ i ∈ [3, 7, 2], i < 10) ∧
    ∃ b, setAll (Bitfield.new 10) [3, 7, 2] = .ok b ∧
      b.set_bits = (List.range 10).filter (fun i => decide (i ∈ [3, 7, 2])) ∧
      b.unset_bits = (List.range 10).filter (fun i => decide (¬ i ∈ [3, 7, 2])) ∧
      ∀ i, 10 ≤ i → b.set i = .error "bit index is out of range" :=
  ⟨by decide, bitfield_iteration_semantics 10 [3, 7, 2] (by decide)⟩
